import Mathlib

/-!
Verification of the libmg operator registry and primitive operator families
(`src/sources/libmg/functions.py`) against the design specification.

Python strings are modelled as `List Char`; tensors of node labels as lists of
rows (one row per node); fallible operations return `Except MGError` or
`Option`.
-/

namespace libmg

/-- Errors of the design-level taxonomy that the modelled code can raise.
`invalidOperatorError` models the `ValueError` raised by
`FunctionDict.__setitem__` on a non-callable value (the specification calls
this error `InvalidOperatorError`); `modeMismatchError` models the
`NotImplementedError` raised when `single_op` / `multiple_op` was never
provided and the default method body runs (the specification calls this
`ModeMismatchError`). -/
inductive MGError where
  | invalidOperatorError
  | modeMismatchError
deriving DecidableEq

/-- Python `key.split(sep)` for a one-character separator: the list of
maximal segments between occurrences of `sep`; always non-empty, and
`''.split(sep) = ['']`. -/
def pySplit (sep : Char) : List Char → List (List Char)
  | [] => [[]]
  | c :: cs =>
    if c = sep then [] :: pySplit sep cs
    else
      match pySplit sep cs with
      | [] => [[c]]
      | s :: ss => (c :: s) :: ss

/-- Python `s.find(c)`: index of the first occurrence of `c`, or `-1`. -/
def pyFind (c : Char) : List Char → Int
  | [] => -1
  | x :: xs =>
    if x = c then 0
    else if pyFind c xs < 0 then -1 else pyFind c xs + 1

/-- Python slice `s[:n]` for an `Int` bound: a negative bound counts from the
end (clamped at zero). -/
def pySlice (l : List Char) (n : Int) : List Char :=
  if n < 0 then l.take ((l.length : Int) + n).toNat else l.take n.toNat

/-- Models `FunctionDict.parse_key`: `tokens = key.split('[')`;
`true_key = tokens[0]`; `arg = None` if there was no `'['`, else
`tokens[1][: tokens[1].find(']')]`. -/
def parse_key (key : List Char) : List Char × Option (List Char) :=
  match pySplit '[' key with
  | [] => ([], none)
  | [t] => (t, none)
  | t :: s :: _ => (t, some (pySlice s (pyFind ']' s)))

lemma pySplit_of_not_mem {sep : Char} {l : List Char} (h : sep ∉ l) :
    pySplit sep l = [l] := by
  induction l with
  | nil => rfl
  | cons c cs ih =>
    have hc : c ≠ sep := fun hcs => h (hcs ▸ List.mem_cons_self c cs)
    have hcs : sep ∉ cs := fun hm => h (List.mem_cons_of_mem c hm)
    simp [pySplit, hc, ih hcs]

lemma pySplit_append {sep : Char} {xs : List Char} (rest : List Char)
    (h : sep ∉ xs) : pySplit sep (xs ++ sep :: rest) = xs :: pySplit sep rest := by
  induction xs with
  | nil => simp [pySplit]
  | cons c cs ih =>
    have hc : c ≠ sep := fun hcs => h (hcs ▸ List.mem_cons_self c cs)
    have hcs : sep ∉ cs := fun hm => h (List.mem_cons_of_mem c hm)
    have hrec := ih hcs
    cases hsplit : pySplit sep (cs ++ sep :: rest) with
    | nil => rw [hsplit] at hrec; exact absurd hrec (by simp)
    | cons s ss =>
      rw [hsplit] at hrec
      obtain ⟨hs, hss⟩ := List.cons.injEq .. ▸ hrec
      simp [pySplit, hc, hsplit, hs, hss]

lemma pySplit_head (sep : Char) (l : List Char) :
    ∃ ss, pySplit sep l = l.takeWhile (fun c => c ≠ sep) :: ss := by
  induction l with
  | nil => exact ⟨[], rfl⟩
  | cons c cs ih =>
    by_cases hc : c = sep
    · subst hc
      refine ⟨pySplit c cs, ?_⟩
      simp [pySplit, List.takeWhile]
    · obtain ⟨ss, hss⟩ := ih
      refine ⟨ss, ?_⟩
      simp only [pySplit, hc, if_false, hss]
      simp [List.takeWhile_cons, hc]

lemma pyFind_of_not_mem {c : Char} {l : List Char} (h : c ∉ l) :
    pyFind c l = -1 := by
  induction l with
  | nil => rfl
  | cons x xs ih =>
    have hx : x ≠ c := fun hxc => h (hxc ▸ List.mem_cons_self x xs)
    have hxs : c ∉ xs := fun hm => h (List.mem_cons_of_mem x hm)
    simp [pyFind, hx, ih hxs]

lemma pyFind_append {a : List Char} (r : List Char) (h : ']' ∉ a) :
    pyFind ']' (a ++ ']' :: r) = (a.length : Int) := by
  induction a with
  | nil => simp [pyFind]
  | cons x xs ih =>
    have hx : x ≠ ']' := fun hxc => h (hxc ▸ List.mem_cons_self x xs)
    have hxs : ']' ∉ xs := fun hm => h (List.mem_cons_of_mem x hm)
    have step : pyFind ']' ((x :: xs) ++ ']' :: r) =
        if pyFind ']' (xs ++ ']' :: r) < 0 then -1
        else pyFind ']' (xs ++ ']' :: r) + 1 := by
      rw [List.cons_append, pyFind, if_neg hx]
    rw [step, ih hxs, if_neg (by omega)]
    simp only [List.length_cons]
    omega

lemma pySlice_length_prefix (a r : List Char) :
    pySlice (a ++ r) (a.length : Int) = a := by
  have h : ¬ ((a.length : Int) < 0) := by omega
  rw [pySlice, if_neg h, Int.toNat_natCast, List.take_left]

lemma pySlice_neg_one (l : List Char) : pySlice l (-1) = l.dropLast := by
  have h : ((-1 : Int) < 0) := by norm_num
  have : ((l.length : Int) + -1).toNat = l.length - 1 := by omega
  simp [pySlice, h, this, List.dropLast_eq_take]

lemma takeWhile_append_all {p : Char → Bool} {a : List Char} (r : List Char)
    (h : ∀ c ∈ a, p c = true) : (a ++ r).takeWhile p = a ++ r.takeWhile p := by
  induction a with
  | nil => simp
  | cons x xs ih =>
    have hx : p x = true := h x (List.mem_cons_self x xs)
    simp [List.takeWhile_cons, hx,
      ih (fun c hc => h c (List.mem_cons_of_mem x hc))]

/-- On a key `xyz[a]…` whose argument `a` is bracket-free, `parse_key`
returns `(xyz, some a)`. -/
lemma parse_key_bracketed {xyz a : List Char} (rest : List Char)
    (hx : '[' ∉ xyz) (ha : '[' ∉ a) (hra : ']' ∉ a) :
    parse_key (xyz ++ '[' :: (a ++ ']' :: rest)) = (xyz, some a) := by
  have hsplit := pySplit_append (a ++ ']' :: rest) hx
  obtain ⟨ss, hss⟩ := pySplit_head '[' (a ++ ']' :: rest)
  have hall : ∀ c ∈ a, (fun c => decide (c ≠ '[')) c = true := by
    intro c hc
    simp only [decide_eq_true_eq]
    intro hceq
    exact ha (hceq ▸ hc)
  have htw : (a ++ ']' :: rest).takeWhile (fun c => c ≠ '[') =
      a ++ ']' :: rest.takeWhile (fun c => c ≠ '[') := by
    rw [takeWhile_append_all (']' :: rest) hall]
    simp [List.takeWhile_cons]
  rw [htw] at hss
  have hfind : pyFind ']' (a ++ ']' :: rest.takeWhile (fun c => c ≠ '[')) =
      (a.length : Int) := pyFind_append _ hra
  simp only [parse_key, hsplit, hss, hfind]
  rw [show a ++ ']' :: rest.takeWhile (fun c => c ≠ '[') =
        a ++ (']' :: rest.takeWhile (fun c => c ≠ '[')) from rfl,
      pySlice_length_prefix]

/-- On a bracket-free key, `parse_key` returns `(key, none)`. -/
lemma parse_key_plain {key : List Char} (h : '[' ∉ key) :
    parse_key key = (key, none) := by
  simp [parse_key, pySplit_of_not_mem h]

/-- On a key `xyz[rest` with no closing bracket anywhere, `parse_key` returns
as `arg` the segment of `rest` before the next `'['` (or the end), with its
last character removed. -/
lemma parse_key_unclosed {xyz : List Char} (rest : List Char)
    (hx : '[' ∉ xyz) (hr : ']' ∉ rest) :
    parse_key (xyz ++ '[' :: rest) =
      (xyz, some ((rest.takeWhile (fun c => c ≠ '[')).dropLast)) := by
  have hsplit := pySplit_append rest hx
  obtain ⟨ss, hss⟩ := pySplit_head '[' rest
  have hsub : ']' ∉ rest.takeWhile (fun c => c ≠ '[') := fun hm =>
    hr ((List.takeWhile_sublist _).subset hm)
  have hfind : pyFind ']' (rest.takeWhile (fun c => c ≠ '[')) = -1 :=
    pyFind_of_not_mem hsub
  simp only [parse_key, hsplit, hss, hfind, pySlice_neg_one]

/-- A Python value offered to `FunctionDict.__setitem__`, over a type `L` of
`tf.keras.layers.Layer` instances and a type `R` of operator values that
lookups produce. `layer` is a pre-built operator instance; `call` is any
other callable (a constructor from the optional bracket argument); `other`
is a non-callable value (tagged by an arbitrary id). -/
inductive DictValue (L R : Type) where
  | layer : L → DictValue L R
  | call : (Option (List Char) → R) → DictValue L R
  | other : Nat → DictValue L R

/-- Python's `callable` test combined with the `isinstance(..., Layer)` test
of `FunctionDict.__setitem__`: layers and plain callables are callable,
`other` values are not. -/
def isCallable {L R : Type} : DictValue L R → Bool
  | .layer _ => true
  | .call _ => true
  | .other _ => false

/-- The underlying `self.data` mapping of a `FunctionDict`, modelled as an
association list from key strings to stored values (most recent binding
first). -/
abbrev FunctionDict (L R : Type) : Type := List (List Char × DictValue L R)

/-- Looks a key up in the underlying `self.data` mapping. -/
def dataLookup {L R : Type} (d : FunctionDict L R) (k : List Char) :
    Option (DictValue L R) :=
  (d.find? (fun p => decide (p.1 = k))).map Prod.snd

/-- Models `FunctionDict.__setitem__`: a `Layer` is stored wrapped in a one-argument
function that discards its argument and returns the instance (the embedding
`layerEmbed` injects the instance into the result type); any other callable
is stored as is; a non-callable value raises `ValueError`
(`InvalidOperatorError` in the design taxonomy). -/
def setitem {L R : Type} (layerEmbed : L → R) (d : FunctionDict L R)
    (k : List Char) (v : DictValue L R) :
    Except MGError (FunctionDict L R) :=
  match v with
  | .layer l => .ok ((k, .call (fun _ => layerEmbed l)) :: d)
  | .call f => .ok ((k, .call f) :: d)
  | .other _ => .error .invalidOperatorError

/-- Models `FunctionDict.__getitem__`: parses the key with `parse_key`, looks up
`true_key` in `self.data`, and applies the stored callable to `arg`.
Returns `none` when the key is absent or the stored value is not callable
(a `KeyError` / `TypeError` in Python). -/
def getitem {L R : Type} (d : FunctionDict L R) (key : List Char) :
    Option R :=
  match dataLookup d (parse_key key).1 with
  | some (.call f) => some (f (parse_key key).2)
  | some _ => none
  | none => none

/-- Registers a whole sequence of key/value pairs via `setitem`, stopping at
the first error. -/
def setitemAll {L R : Type} (layerEmbed : L → R) :
    FunctionDict L R → List (List Char × DictValue L R) →
    Except MGError (FunctionDict L R)
  | d, [] => .ok d
  | d, (k, v) :: ops =>
    match setitem layerEmbed d k v with
    | .ok d2 => setitemAll layerEmbed d2 ops
    | .error e => .error e

/-- The registry invariant: the entry is stored in wrapped, callable form. -/
def storedCallable {L R : Type} (v : DictValue L R) : Prop :=
  ∃ f, v = DictValue.call f

lemma dataLookup_cons_self {L R : Type} (d : FunctionDict L R)
    (k : List Char) (v : DictValue L R) :
    dataLookup ((k, v) :: d) k = some v := by
  simp [dataLookup, List.find?]

/-- The state of a `Psi` (or `PsiGlobal`) instance: which of the two
operator attributes `single_op` / `multiple_op` were supplied at
construction.  An absent attribute stands for the default method body,
which raises `NotImplementedError`. -/
structure PsiOp (α β : Type) where
  single_op : Option (List α → List β)
  multiple_op : Option (List α → List Int → List β)

/-- Models `Psi.__call__(x, i)`: dispatches on whether a graph-index vector `i`
was supplied; a missing attribute raises (`ModeMismatchError` in the design
taxonomy). -/
def Psi_call {α β : Type} (p : PsiOp α β) (x : List α)
    (i : Option (List Int)) : Except MGError (List β) :=
  match i with
  | some iv =>
    match p.multiple_op with
    | some mop => .ok (mop x iv)
    | none => .error .modeMismatchError
  | none =>
    match p.single_op with
    | some sop => .ok (sop x)
    | none => .error .modeMismatchError

/-- Models `PsiLocal.__call__(x, i)`: always `self.single_op(x)` (which is the
supplied `f`), whatever `i` is. -/
def PsiLocal_call {α β : Type} (f : List α → List β) (x : List α)
    (_i : Option (List Int)) : Except MGError (List β) :=
  .ok (f x)

/-- The unique values of `tf.unique_with_counts`, in order of first
occurrence. -/
def tfUnique : List Int → List Int
  | [] => []
  | a :: l => a :: tfUnique (l.filter (fun x => x ≠ a))
termination_by l => l.length
decreasing_by
  simp only [List.length_cons]
  exact Nat.lt_succ_of_le (List.length_filter_le _ _)

/-- The per-unique-value multiplicities of `tf.unique_with_counts`. -/
def tfCounts (iv : List Int) : List Nat :=
  (tfUnique iv).map (fun u => iv.count u)

/-- Models `tf.repeat(rows, n, axis=0)` with a scalar repeat count: each row
repeated `n` times, consecutively. -/
def tfRepeatScalar {β : Type} (rows : List β) (n : Nat) : List β :=
  rows.flatMap (fun r => List.replicate n r)

/-- Models `tf.repeat(rows, counts, axis=0)` with a vector of repeat counts: row
`j` repeated `counts[j]` times, in row order. -/
def tfRepeatRows {β : Type} (rows : List β) (counts : List Nat) : List β :=
  (rows.zip counts).flatMap (fun p => List.replicate p.2 p.1)

/-- Models `PsiGlobal.__call__(x, i)`: with a graph-index vector, the pooled rows
of `multiple_op` are replicated by the counts of `tf.unique_with_counts(i)`;
without one, the pooled rows of `single_op` are replicated `tf.shape(x)[0]`
(the node count) times. -/
def PsiGlobal_call {α β : Type} (p : PsiOp α β) (x : List α)
    (i : Option (List Int)) : Except MGError (List β) :=
  match i with
  | some iv =>
    match p.multiple_op with
    | some mop => .ok (tfRepeatRows (mop x iv) (tfCounts iv))
    | none => .error .modeMismatchError
  | none =>
    match p.single_op with
    | some sop => .ok (tfRepeatScalar (sop x) x.length)
    | none => .error .modeMismatchError

/-- The state of a `Phi` instance: the message function `f` supplied at
construction. -/
structure PhiOp (α ε β : Type) where
  f : List α → List ε → List α → List β

/-- Models `Phi.__call__(src, e, tgt) = self.f(src, e, tgt)`. -/
def Phi_call {α ε β : Type} (p : PhiOp α ε β) (src : List α) (e : List ε)
    (tgt : List α) : List β :=
  p.f src e tgt

/-- The state of a `Sigma` instance: the aggregation function `f` supplied
at construction. -/
structure SigmaOp (μ χ β : Type) where
  f : List μ → List Int → Nat → List χ → List β

/-- Models `Sigma.__call__(m, i, n, x) = self.f(m, i, n, x)`. -/
def Sigma_call {μ χ β : Type} (p : SigmaOp μ χ β) (m : List μ)
    (i : List Int) (n : Nat) (x : List χ) : List β :=
  p.f m i n x

/-- A `Psi.__call__` invocation together with the instance state after the
call; the method body performs no attribute assignment, so the state is
returned unchanged. -/
def Psi_step {α β : Type} (p : PsiOp α β) (x : List α)
    (i : Option (List Int)) :
    Except MGError (List β) × PsiOp α β :=
  (Psi_call p x i, p)

/-- A `PsiGlobal.__call__` invocation with the post-call instance state;
the method body performs no attribute assignment. -/
def PsiGlobal_step {α β : Type} (p : PsiOp α β) (x : List α)
    (i : Option (List Int)) :
    Except MGError (List β) × PsiOp α β :=
  (PsiGlobal_call p x i, p)

/-- A `Phi.__call__` invocation with the post-call instance state; the
method body performs no attribute assignment. -/
def Phi_step {α ε β : Type} (p : PhiOp α ε β) (src : List α) (e : List ε)
    (tgt : List α) : List β × PhiOp α ε β :=
  (Phi_call p src e tgt, p)

/-- A `Sigma.__call__` invocation with the post-call instance state; the
method body performs no attribute assignment. -/
def Sigma_step {μ χ β : Type} (p : SigmaOp μ χ β) (m : List μ)
    (i : List Int) (n : Nat) (x : List χ) :
    List β × SigmaOp μ χ β :=
  (Sigma_call p m i n x, p)

lemma sorted_decomp {a : Int} {l : List Int}
    (h : List.Sorted (· ≤ ·) (a :: l)) :
    l = List.replicate (l.count a) a ++ l.filter (fun x => x ≠ a) := by
  induction l with
  | nil => simp
  | cons b t ih =>
    have hab : a ≤ b := (List.sorted_cons.mp h).1 b (List.mem_cons_self b t)
    have hbt : List.Sorted (· ≤ ·) (b :: t) := (List.sorted_cons.mp h).2
    by_cases hba : b = a
    · subst hba
      have hthis := ih hbt
      calc b :: t
          = b :: (List.replicate (t.count b) b ++
              t.filter (fun x => x ≠ b)) := by rw [← hthis]
        _ = List.replicate ((b :: t).count b) b ++
              (b :: t).filter (fun x => x ≠ b) := by
            rw [List.count_cons_self, List.replicate_succ]
            simp [List.filter_cons]
    · have hnotmem : a ∉ b :: t := by
        intro hm
        rcases List.mem_cons.mp hm with h1 | h2
        · exact hba h1.symm
        · have hba2 : b ≤ a := (List.sorted_cons.mp hbt).1 a h2
          exact hba (le_antisymm hba2 hab)
      have hcount : (b :: t).count a = 0 := List.count_eq_zero.mpr hnotmem
      have hfilter : (b :: t).filter (fun x => x ≠ a) = b :: t := by
        rw [List.filter_eq_self]
        intro x hx
        simp only [decide_eq_true_eq]
        intro hxa
        exact hnotmem (hxa ▸ hx)
      rw [hcount, hfilter]
      simp

lemma mem_of_mem_tfUnique {x : Int} :
    ∀ l : List Int, x ∈ tfUnique l → x ∈ l
  | [], h => by simp [tfUnique] at h
  | a :: l, h => by
    rw [tfUnique] at h
    rcases List.mem_cons.mp h with h1 | h2
    · exact h1 ▸ List.mem_cons_self a l
    · have hm := mem_of_mem_tfUnique (l.filter (fun y => y ≠ a)) h2
      exact List.mem_cons_of_mem a (List.mem_of_mem_filter hm)
termination_by l => l.length
decreasing_by
  simp only [List.length_cons]
  exact Nat.lt_succ_of_le (List.length_filter_le _ _)

lemma flatMap_congr_mem {α β : Type} {l : List α} {f g : α → List β}
    (h : ∀ x ∈ l, f x = g x) : l.flatMap f = l.flatMap g := by
  induction l with
  | nil => rfl
  | cons a t ih =>
    simp only [List.flatMap_cons]
    rw [h a (List.mem_cons_self a t),
      ih (fun x hx => h x (List.mem_cons_of_mem a hx))]

/-- Replicating, for each unique value of a non-decreasing index vector, a
row for that value by the value's multiplicity reproduces the vector's
row-per-position image, in order. -/
lemma tfUnique_flatMap_replicate {β : Type} (f : Int → β) :
    ∀ l : List Int, List.Sorted (· ≤ ·) l →
      (tfUnique l).flatMap (fun u => List.replicate (l.count u) (f u)) =
        l.map f
  | [], _ => by simp [tfUnique]
  | a :: t, h => by
    have hdec := sorted_decomp h
    have ht : List.Sorted (· ≤ ·) t := (List.sorted_cons.mp h).2
    have htf : List.Sorted (· ≤ ·) (t.filter (fun x => x ≠ a)) :=
      List.Pairwise.filter _ ht
    rw [tfUnique, List.flatMap_cons]
    have hcong : ∀ u ∈ tfUnique (t.filter (fun x => x ≠ a)),
        (fun u => List.replicate ((a :: t).count u) (f u)) u =
          (fun u => List.replicate
            ((t.filter (fun x => x ≠ a)).count u) (f u)) u := by
      intro u hu
      have hut : u ∈ t.filter (fun x => x ≠ a) :=
        mem_of_mem_tfUnique _ hu
      have hua : u ≠ a := by
        have := List.of_mem_filter hut
        simpa using this
      simp only
      rw [List.count_cons_of_ne hua,
        List.count_filter (by simpa using hua)]
    rw [flatMap_congr_mem hcong,
      tfUnique_flatMap_replicate f (t.filter (fun x => x ≠ a)) htf,
      List.count_cons_self]
    conv_rhs => rw [show a :: t =
      a :: (List.replicate (t.count a) a ++ t.filter (fun x => x ≠ a))
      from by rw [← hdec]]
    simp [List.replicate_succ, List.map_replicate]
termination_by l => l.length
decreasing_by
  simp only [List.length_cons]
  exact Nat.lt_succ_of_le (List.length_filter_le _ _)

/-- Evaluating `tfRepeatRows` on pooled rows `f(u)` for the unique values `u` and their
multiplicities equals a per-unique-value flatMap of replicas. -/
lemma tfRepeatRows_map {β : Type} (f : Int → β) (iv : List Int) :
    tfRepeatRows ((tfUnique iv).map f) (tfCounts iv) =
      (tfUnique iv).flatMap
        (fun u => List.replicate (iv.count u) (f u)) := by
  rw [tfRepeatRows, tfCounts, List.zip_map']
  induction tfUnique iv with
  | nil => rfl
  | cons a t ih => simp only [List.map_cons, List.flatMap_cons, ih]

lemma dataLookup_mem {L R : Type} {d : FunctionDict L R} {k : List Char}
    {v : DictValue L R} (h : dataLookup d k = some v) :
    ∃ k2, (k2, v) ∈ d := by
  induction d with
  | nil => simp [dataLookup] at h
  | cons p t ih =>
    by_cases hp : p.1 = k
    · have heq : dataLookup (p :: t) k = some p.2 := by
        simp [dataLookup, List.find?, hp]
      rw [heq] at h
      obtain rfl : p.2 = v := by injection h
      exact ⟨p.1, by simp⟩
    · have heq : dataLookup (p :: t) k = dataLookup t k := by
        simp [dataLookup, List.find?, hp]
      rw [heq] at h
      obtain ⟨k2, hk2⟩ := ih h
      exact ⟨k2, List.mem_cons_of_mem _ hk2⟩

lemma setitemAll_preserves {L R : Type} (layerEmbed : L → R)
    (ops : List (List Char × DictValue L R)) :
    ∀ d d2 : FunctionDict L R, (∀ p ∈ d, storedCallable p.2) →
      setitemAll layerEmbed d ops = .ok d2 →
      ∀ p ∈ d2, storedCallable p.2 := by
  induction ops with
  | nil =>
    intro d d2 hinv hrun
    simp only [setitemAll, Except.ok.injEq] at hrun
    exact hrun ▸ hinv
  | cons kv ops ih =>
    intro d d2 hinv hrun
    obtain ⟨k, v⟩ := kv
    cases v with
    | layer l =>
      refine ih ((k, .call (fun _ => layerEmbed l)) :: d) d2 ?_ ?_
      · intro p hp
        rcases List.mem_cons.mp hp with h1 | h2
        · exact ⟨_, by rw [h1]⟩
        · exact hinv p h2
      · simpa [setitemAll, setitem] using hrun
    | call f =>
      refine ih ((k, .call f) :: d) d2 ?_ ?_
      · intro p hp
        rcases List.mem_cons.mp hp with h1 | h2
        · exact ⟨_, by rw [h1]⟩
        · exact hinv p h2
      · simpa [setitemAll, setitem] using hrun
    | other m => simp [setitemAll, setitem] at hrun

/-- Implements `A.f` from the reference test suite: bitwise-and of each node
label with `2 ** 0`, cast to boolean (nonzero becomes true). -/
def A_f (x : List (List Nat)) : List (List Bool) :=
  x.map (fun row => row.map (fun v => Nat.land v 1 != 0))

/-- Implements `Not.f` from the reference test suite: pointwise logical
negation of each node label. -/
def Not_f (x : List (List Bool)) : List (List Bool) :=
  x.map (fun row => row.map (fun b => !b))

/-- Node labels of the 5-node test graph built by `TestDataset.read`:
`np.array([[1], [2], [4], [1], [1]])`. -/
def testX : List (List Nat) := [[1], [2], [4], [1], [1]]

/-- Modelled from the spec: the Compiler that gives `Sequential(left, right)`
("apply `left`, then apply `right` to its output") its meaning is not among
the sources, so sequential composition of two node-wise operators is
modelled as function composition. -/
def seqApply {γ δ ε : Type} (f : List γ → List δ) (g : List δ → List ε)
    (x : List γ) : List ε :=
  g (f x)

/-- C1: after registering a constructor (plain callable) under `name`,
looking up `name[a]` applies the constructor to `a` and looking up the bare
`name` applies it to `None`; after registering a pre-built `Layer` instance
under `name`, every lookup whose key parses to `name` returns that identical
instance, whatever the bracketed argument. -/
theorem registry_lookup_constructor_or_instance {L R : Type}
    (layerEmbed : L → R) (d : FunctionDict L R) (name a : List Char)
    (hn : '[' ∉ name) (ha : '[' ∉ a) (hra : ']' ∉ a) :
    (∀ (f : Option (List Char) → R) (d2 : FunctionDict L R),
      setitem layerEmbed d name (.call f) = .ok d2 →
        getitem d2 (name ++ '[' :: (a ++ [']'])) = some (f (some a)) ∧
        getitem d2 name = some (f none)) ∧
    (∀ (l : L) (d2 : FunctionDict L R),
      setitem layerEmbed d name (.layer l) = .ok d2 →
        ∀ key : List Char, (parse_key key).1 = name →
          getitem d2 key = some (layerEmbed l)) := by
  constructor
  · intro f d2 hset
    simp only [setitem, Except.ok.injEq] at hset
    subst hset
    have hpk : parse_key (name ++ '[' :: (a ++ [']'])) = (name, some a) :=
      parse_key_bracketed [] hn ha hra
    have hpk2 : parse_key name = (name, none) := parse_key_plain hn
    constructor
    · unfold getitem
      rw [hpk, dataLookup_cons_self]
    · unfold getitem
      rw [hpk2, dataLookup_cons_self]
  · intro l d2 hset key hkey
    simp only [setitem, Except.ok.injEq] at hset
    subst hset
    unfold getitem
    rw [hkey, dataLookup_cons_self]

/-- C1 witness: a constructor registered under `n` is invoked with the
bracketed argument `x` (or `None` for a bare lookup), while a registered
instance `7` is returned identically under an arbitrary bracketed key. -/
theorem registry_lookup_constructor_or_instance_witness :
    getitem ((['n'], DictValue.call
        (fun o => (Sum.inl o : Sum (Option (List Char)) Nat))) ::
        ([] : FunctionDict Nat (Sum (Option (List Char)) Nat)))
      ['n', '[', 'x', ']'] = some (Sum.inl (some ['x'])) ∧
    getitem ((['n'], DictValue.call
        (fun o => (Sum.inl o : Sum (Option (List Char)) Nat))) ::
        ([] : FunctionDict Nat (Sum (Option (List Char)) Nat)))
      ['n'] = some (Sum.inl none) ∧
    getitem ((['n'], DictValue.call
        (fun _ => (Sum.inr 7 : Sum (Option (List Char)) Nat))) ::
        ([] : FunctionDict Nat (Sum (Option (List Char)) Nat)))
      ['n', '[', 'q', ']'] = some (Sum.inr 7) := by
  have h := registry_lookup_constructor_or_instance
    (fun n : Nat => (Sum.inr n : Sum (Option (List Char)) Nat)) []
    ['n'] ['x'] (by decide) (by decide) (by decide)
  refine ⟨?_, ?_, ?_⟩
  · exact (h.1 (fun o => Sum.inl o) _ rfl).1
  · exact (h.1 (fun o => Sum.inl o) _ rfl).2
  · exact h.2 7 _ rfl ['n', '[', 'q', ']'] (by decide)

/-- C2 counterexample: on the key `f[a[b]`, which does contain a first `[`
followed later by a `]`, `parse_key` returns `(f, "")`, not the pair
`(f, "a[b")` that splitting on the first `[`...`]` pair would give. -/
theorem parse_key_first_pair_cex :
    parse_key ['f', '[', 'a', '[', 'b', ']'] = (['f'], some []) ∧
    parse_key ['f', '[', 'a', '[', 'b', ']'] ≠
      (['f'], some ['a', '[', 'b']) := by
  constructor
  · rfl
  · decide

/-- C2 (amended): for every key of the form `xyz[a]` whose argument `a`
contains no square bracket of either kind, `parse_key` returns `(xyz, a)`;
for every key containing no `[`, it returns `(key, None)`. -/
theorem parse_key_bracket_pair_amended (xyz a key : List Char)
    (hx : '[' ∉ xyz) (ha : '[' ∉ a) (hra : ']' ∉ a) (hk : '[' ∉ key) :
    parse_key (xyz ++ '[' :: (a ++ [']'])) = (xyz, some a) ∧
    parse_key key = (key, none) :=
  ⟨parse_key_bracketed [] hx ha hra, parse_key_plain hk⟩

/-- C2 witness: `parse_key` maps `x[y]` to `(x, y)` and `k` to `(k, None)`. -/
theorem parse_key_bracket_pair_amended_witness :
    parse_key ['x', '[', 'y', ']'] = (['x'], some ['y']) ∧
    parse_key ['k'] = (['k'], none) := by
  have h := parse_key_bracket_pair_amended ['x'] ['y'] ['k']
    (by decide) (by decide) (by decide) (by decide)
  exact h

/-- C3: registering a value that is neither callable nor an operator
instance fails with the registry error (`ValueError` in the code,
`InvalidOperatorError` in the design taxonomy), and registration fails in
exactly the non-callable cases. -/
theorem setitem_rejects_non_callable {L R : Type} (layerEmbed : L → R)
    (d : FunctionDict L R) (k : List Char) (n : Nat) :
    setitem layerEmbed d k (.other n) = .error .invalidOperatorError ∧
    (∀ v : DictValue L R,
      (∃ e, setitem layerEmbed d k v = .error e) ↔ isCallable v = false) := by
  refine ⟨rfl, ?_⟩
  intro v
  cases v with
  | layer l => simp [setitem, isCallable]
  | call f => simp [setitem, isCallable]
  | other m => simp [setitem, isCallable]

/-- C4: a `PsiGlobal` application broadcasts the pooled value: in
single-graph mode every one of the `x.length` nodes receives the single
pooled row of `single_op`; in multi-graph mode with a non-decreasing
graph-index vector, where `multiple_op` pools one row per distinct graph
index (row `f u` for graph `u`), every node receives its own graph's pooled
row, in node order. -/
theorem psiGlobal_broadcasts_pooled_value {α β : Type}
    (sop : List α → List β) (mop : List α → List Int → List β)
    (x : List α) (pv : β) (iv : List Int) (f : Int → β)
    (hs : sop x = [pv]) (hsort : List.Sorted (· ≤ ·) iv)
    (hm : mop x iv = (tfUnique iv).map f) :
    PsiGlobal_call ⟨some sop, some mop⟩ x none =
      .ok (List.replicate x.length pv) ∧
    PsiGlobal_call ⟨some sop, some mop⟩ x (some iv) =
      .ok (iv.map f) := by
  constructor
  · simp [PsiGlobal_call, hs, tfRepeatScalar]
  · simp only [PsiGlobal_call, hm]
    rw [tfRepeatRows_map, tfUnique_flatMap_replicate f iv hsort]

/-- C4 witness: on three nodes, single-graph pooling to `[6]` broadcasts to
`[6, 6, 6]`; on graph indices `[0, 0, 1]` with pooled rows `[5, 7]`, the
two nodes of graph `0` receive `5` and the node of graph `1` receives `7`. -/
theorem psiGlobal_broadcasts_pooled_value_witness :
    PsiGlobal_call ⟨some (fun _ => [6]), some (fun _ _ => [5, 7])⟩
      ([10, 20, 30] : List Nat) none = .ok [6, 6, 6] ∧
    PsiGlobal_call ⟨some (fun _ => [6]), some (fun _ _ => [5, 7])⟩
      ([10, 20, 30] : List Nat) (some [0, 0, 1]) = .ok [5, 5, 7] := by
  have h := psiGlobal_broadcasts_pooled_value
    (fun _ => ([6] : List Nat)) (fun _ _ => [5, 7]) [10, 20, 30] 6 [0, 0, 1]
    (fun g => if g = 0 then 5 else 7) rfl (by decide)
    (by simp [tfUnique])
  refine ⟨h.1, ?_⟩
  rw [h.2]
  simp

/-- C5: invoking a `Psi` or `PsiGlobal` operator having only `multiple_op`
without a graph-index vector, or one having only `single_op` with a
graph-index vector, fails with `ModeMismatchError` (the default method's
`NotImplementedError` in the code). -/
theorem psi_wrong_mode_raises {α β : Type} (sop : List α → List β)
    (mop : List α → List Int → List β) (x : List α) (iv : List Int) :
    Psi_call ⟨none, some mop⟩ x none = .error .modeMismatchError ∧
    Psi_call ⟨some sop, none⟩ x (some iv) = .error .modeMismatchError ∧
    PsiGlobal_call ⟨none, some mop⟩ x none = .error .modeMismatchError ∧
    PsiGlobal_call ⟨some sop, none⟩ x (some iv) =
      .error .modeMismatchError :=
  ⟨rfl, rfl, rfl, rfl⟩

/-- C6: on the node labels `[1, 2, 4, 1, 1]` of the 5-node test graph, atom
`a` (extract bit 0 as boolean) outputs `[True, False, False, True, True]`,
and the composition `a;not` outputs the pointwise negation
`[False, True, True, False, False]`. -/
theorem atom_a_and_negation_on_test_graph :
    A_f testX = [[true], [false], [false], [true], [true]] ∧
    seqApply A_f Not_f testX =
      [[false], [true], [true], [false], [false]] := by
  constructor
  · rfl
  · rfl

/-- C7: each of the four operator families is deterministic and effect-free
on the operator instance: a call leaves the instance state unchanged, and a
second call on the resulting state with identical input tensors returns an
identical output tensor. -/
theorem operator_calls_pure_and_stateless {α ε μ χ β : Type}
    (pp : PsiOp α β) (ph : PhiOp α ε β) (ps : SigmaOp μ χ β)
    (x : List α) (i : Option (List Int)) (src : List α) (e : List ε)
    (tgt : List α) (m : List μ) (it : List Int) (n : Nat) (xc : List χ) :
    ((Psi_step pp x i).2 = pp ∧
      (Psi_step (Psi_step pp x i).2 x i).1 = (Psi_step pp x i).1) ∧
    ((PsiGlobal_step pp x i).2 = pp ∧
      (PsiGlobal_step (PsiGlobal_step pp x i).2 x i).1 =
        (PsiGlobal_step pp x i).1) ∧
    ((Phi_step ph src e tgt).2 = ph ∧
      (Phi_step (Phi_step ph src e tgt).2 src e tgt).1 =
        (Phi_step ph src e tgt).1) ∧
    ((Sigma_step ps m it n xc).2 = ps ∧
      (Sigma_step (Sigma_step ps m it n xc).2 m it n xc).1 =
        (Sigma_step ps m it n xc).1) :=
  ⟨⟨rfl, rfl⟩, ⟨rfl, rfl⟩, ⟨rfl, rfl⟩, ⟨rfl, rfl⟩⟩

/-- C8: a `PsiLocal` operator ignores the graph-index argument entirely:
for every input and every `i`, the call returns `f x`, exactly the
single-graph `Psi` behavior, and never fails. -/
theorem psiLocal_ignores_graph_index {α β : Type} (f : List α → List β)
    (x : List α) (i : Option (List Int)) :
    PsiLocal_call f x i = .ok (f x) ∧
    PsiLocal_call f x i = Psi_call ⟨some f, none⟩ x none :=
  ⟨rfl, rfl⟩

/-- C9 counterexample: on the key `f[a[b`, which contains a `[` but no `]`,
`parse_key` returns `(f, "")`, not the pair `(f, "a[")` that taking the
whole substring after the first `[` minus its final character would give. -/
theorem parse_key_unclosed_cex :
    parse_key ['f', '[', 'a', '[', 'b'] = (['f'], some []) ∧
    parse_key ['f', '[', 'a', '[', 'b'] ≠ (['f'], some ['a', '[']) := by
  constructor
  · rfl
  · decide

/-- C9 (amended): for every key `xyz[rest` containing a `[` but no closing
`]`, `parse_key` does not fail: it returns as `arg` the segment of the
substring after the first `[` that precedes the next `[` (or the end of the
key), with its final character removed, because the failed search for `]`
yields index `-1` and the slice drops the last character. -/
theorem parse_key_unclosed_amended (xyz rest : List Char)
    (hx : '[' ∉ xyz) (hr : ']' ∉ rest) :
    parse_key (xyz ++ '[' :: rest) =
      (xyz, some ((rest.takeWhile (fun c => c ≠ '[')).dropLast)) :=
  parse_key_unclosed rest hx hr

/-- C9 witness: `parse_key` maps the unclosed key `f[ab` to `(f, a)`. -/
theorem parse_key_unclosed_amended_witness :
    parse_key ['f', '[', 'a', 'b'] = (['f'], some ['a']) := by
  have h := parse_key_unclosed_amended ['f'] ['a', 'b']
    (by decide) (by decide)
  exact h.trans (by rfl)

/-- C10: starting from a registry whose stored values are all in wrapped
callable form, any successful sequence of `__setitem__` calls preserves
that invariant, and on such a registry every successful lookup of a stored
key is the application of a callable (so `__getitem__` produces a value). -/
theorem registry_values_stay_callable {L R : Type} (layerEmbed : L → R)
    (d d2 : FunctionDict L R) (ops : List (List Char × DictValue L R))
    (hinv : ∀ p ∈ d, storedCallable p.2)
    (hrun : setitemAll layerEmbed d ops = .ok d2) :
    (∀ p ∈ d2, storedCallable p.2) ∧
    (∀ (key : List Char) (v : DictValue L R),
      dataLookup d2 (parse_key key).1 = some v →
        ∃ r, getitem d2 key = some r) := by
  have hpres := setitemAll_preserves layerEmbed ops d d2 hinv hrun
  refine ⟨hpres, ?_⟩
  intro key v hv
  obtain ⟨k2, hmem⟩ := dataLookup_mem hv
  obtain ⟨f, hf⟩ := hpres (k2, v) hmem
  refine ⟨f (parse_key key).2, ?_⟩
  have hf2 : v = DictValue.call f := hf
  unfold getitem
  rw [hv, hf2]

/-- C10 witness: registering a constructor and then a `Layer` instance
leaves both stored entries in wrapped callable form, and looking the layer
key up yields a value. -/
theorem registry_values_stay_callable_witness :
    storedCallable
      (DictValue.call (fun _ => (5 : Nat)) : DictValue Nat Nat) ∧
    (∃ r, getitem
      ((['b'], DictValue.call (fun _ => (5 : Nat))) ::
        (['a'], DictValue.call (fun _ => (3 : Nat))) ::
        ([] : FunctionDict Nat Nat)) ['b'] = some r) := by
  have h := registry_values_stay_callable (fun n : Nat => n)
    []
    ((['b'], DictValue.call (fun _ => (5 : Nat))) ::
      (['a'], DictValue.call (fun _ => (3 : Nat))) :: [])
    [(['a'], DictValue.call (fun _ => (3 : Nat))),
      (['b'], DictValue.layer 5)]
    (by intro p hp; simp at hp) rfl
  refine ⟨?_, ?_⟩
  · exact h.1 (['b'], DictValue.call (fun _ => (5 : Nat)))
      (List.mem_cons_self _ _)
  · exact h.2 ['b'] (DictValue.call (fun _ => (5 : Nat))) rfl

end libmg
